import Mathlib

/-!
Verification of the image-scraper utility (`image_scraper.py`,
`examples/batch_scraper.py`) against its natural-language specification.

The Python functions are shallowly embedded as Lean functions.  External
library effects (the HTTP client, the HTML parser, the Pillow encoder, the
file system) enter the embedding as explicit parameters, so every embedded
function is a total, executable Lean definition.
-/

namespace ImageScraper

/-! ## Definitions -/

/-! ### Decimal formatting: the model of Python `f"{n:04d}"`

`Nat.repr` renders a natural number in decimal exactly as Python's
`str`/`%d` does; `pad4` adds the `04` zero-padding.  The auxiliary decimal
evaluator `lval` is a left inverse used to prove `pad4` injective. -/

/-- Numeric value of a decimal digit character. -/
def chVal (c : Char) : Nat := c.toNat - 48

/-- Decimal value of a character list, most-significant digit first. -/
def lval (l : List Char) : Nat := l.foldl (fun a c => a * 10 + chVal c) 0

/-- Model of Python `f"{n:04d}"`: decimal digits, left-padded with `'0'` to
width 4 (numbers with five or more digits are rendered unpadded). -/
def pad4 (n : Nat) : String :=
  let s := Nat.repr n
  if s.length < 4 then ⟨List.replicate (4 - s.length) '0' ++ s.data⟩ else s

/-! ### Model of `urllib.parse.urlparse`

Only the fields the scraper reads (`scheme`, `netloc`, `path`) are
modelled, following CPython's `urlsplit`: scheme = run of scheme characters
before the first `':'` starting with a letter, lower-cased; netloc = the
text between a leading `"//"` and the next `/`, `?` or `#`; the path stops
at the first `?` or `#`, and `urlparse` further strips a `;parameters`
suffix from the last path segment.  `none` models the `ValueError` CPython
raises on mismatched IPv6 brackets in the authority. -/

structure UrlParts where
  scheme : String
  netloc : String
  path : String
  deriving DecidableEq, Repr

/-- Characters CPython allows in a URL scheme. -/
def isSchemeChar (c : Char) : Bool := c.isAlphanum || c = '+' || c = '-' || c = '.'

/-- Split a character list at the first occurrence of `sep` (absent: `none`). -/
def splitFirst (sep : Char) : List Char → Option (List Char × List Char)
  | [] => none
  | c :: cs =>
    if c = sep then some ([], cs)
    else (splitFirst sep cs).map (fun q => (c :: q.1, q.2))

/-- Scheme extraction: the text before the first `':'`, when it is a
non-empty run of scheme characters starting with a letter. -/
def splitScheme (l : List Char) : List Char × List Char :=
  match splitFirst ':' l with
  | none => ([], l)
  | some (before, after) =>
    match before with
    | [] => ([], l)
    | c :: _ =>
      if c.isAlpha && before.all isSchemeChar then (before.map Char.toLower, after)
      else ([], l)

/-- CPython `_splitparams`: drop a `;parameters` suffix of the last segment. -/
def splitParams (path : List Char) : List Char :=
  let rev := path.reverse
  let lastseg := (rev.takeWhile (fun c => c ≠ '/')).reverse
  let dirpart := (rev.dropWhile (fun c => c ≠ '/')).reverse
  dirpart ++ lastseg.takeWhile (fun c => c ≠ ';')

/-- Model of `urllib.parse.urlparse` restricted to scheme, netloc and path. -/
def urlparse (url : String) : Option UrlParts :=
  let (scheme, rest) := splitScheme url.data
  let (netloc, rest2) :=
    if rest.take 2 = ['/', '/'] then
      ((rest.drop 2).takeWhile (fun c => !(c = '/' || c = '?' || c = '#')),
       (rest.drop 2).dropWhile (fun c => !(c = '/' || c = '?' || c = '#')))
    else ([], rest)
  if (netloc.contains '[' && !netloc.contains ']') ||
     (netloc.contains ']' && !netloc.contains '[') then none
  else
    let preFrag := rest2.takeWhile (fun c => c ≠ '#')
    let path := preFrag.takeWhile (fun c => c ≠ '?')
    some ⟨⟨scheme⟩, ⟨netloc⟩, ⟨splitParams path⟩⟩

/-- `is_valid_url` (image_scraper.py lines 44-50): the URL parses with
scheme `http`/`https` and a non-empty netloc; a `ValueError` from
`urlparse` is caught and yields `False`. -/
def is_valid_url (url : String) : Bool :=
  match urlparse url with
  | none => false
  | some r => (r.scheme = "http" || r.scheme = "https") && r.netloc ≠ ""

/-! ### The Filename Resolver (`download_image` lines 104-114) -/

/-- `os.path.basename` (POSIX): the part of the path after the last `'/'`. -/
def basename (path : String) : String :=
  ⟨(path.data.reverse.takeWhile (fun c => c ≠ '/')).reverse⟩

/-- Predicate for scanning to the last dot of a name. -/
def notDot (c : Char) : Bool := c ≠ '.'

/-- `os.path.splitext` on a bare filename: split at the last dot, unless
all characters before that dot are dots. -/
def splitext (p : String) : String × String :=
  let rev := p.data.reverse
  let afterRev := rev.takeWhile notDot
  match rev.dropWhile notDot with
  | [] => (p, "")
  | hd :: baseRev =>
    if baseRev.all (fun c => c = '.') then (p, "")
    else (⟨baseRev.reverse⟩, ⟨hd :: afterRev.reverse⟩)

/-- The regex test `re.search(r'\.(jpg|jpeg|png|gif|bmp|webp)$', f, re.IGNORECASE)`:
the lower-cased name ends in a dot plus an accepted raster extension. -/
def hasImageExt (f : String) : Bool :=
  [".jpg", ".jpeg", ".png", ".gif", ".bmp", ".webp"].any
    (fun e => e.data.isSuffixOf (f.data.map Char.toLower))

/-- Lines 104-107: candidate filename from the URL path, replaced by the
synthetic `f"image_{index:04d}.jpg"` when empty or lacking a known raster
extension. -/
def candidateFilename (path : String) (index : Nat) : String :=
  let filename := basename path
  if filename = "" || !hasImageExt filename then "image_" ++ pad4 index ++ ".jpg"
  else filename

/-- The `while os.path.exists(...)` loop of lines 110-114, fuel-indexed;
the Python loop is unbounded, and `resolveFromPath` passes fuel that
provably suffices for the loop to reach a fresh name. -/
def findUnique (dir : List String) (base ext : String) : Nat → String → Nat → String
  | 0, filename, _ => filename
  | fuel + 1, filename, counter =>
    if filename ∈ dir then
      findUnique dir base ext fuel (base ++ "_" ++ pad4 counter ++ ext) (counter + 1)
    else filename

/-- Lines 104-114 of `download_image`: the Filename Resolver, from the
URL's path component and the destination directory's current listing. -/
def resolveFromPath (dir : List String) (path : String) (index : Nat) : String :=
  let filename := candidateFilename path index
  let be := splitext filename
  findUnique dir be.1 be.2 (dir.length + 1) filename 1

/-- The name tested at the `j`-th iteration of the `while` loop, starting
from `filename` with the given counter. -/
def loopCand (base ext filename : String) (counter : Nat) : Nat → String
  | 0 => filename
  | j + 1 => base ++ "_" ++ pad4 (counter + j) ++ ext

/-! ### Page fetch and the Image URL Extractor (`get_image_urls`, lines 52-82) -/

/-- Result of one `requests.get` call: either the transport layer raised a
`RequestException`, or a response with a status code and body arrived. -/
inductive FetchOutcome where
  | transportError (cause : String)
  | response (status : Nat) (body : String)
  deriving DecidableEq, Repr

/-- `Response.raise_for_status`: raises an `HTTPError` exactly for 4xx/5xx
status codes. -/
def raiseForStatus (status : Nat) : Bool := 400 ≤ status && status < 600

/-- The fetch stage of `get_image_urls` (lines 55-59): `requests.get` plus
`raise_for_status` plus `.text`.  A failure carries the original cause. -/
def fetchPage (fetch : FetchOutcome) : Except String String :=
  match fetch with
  | .transportError cause => .error cause
  | .response status body =>
    if raiseForStatus status then .error ("HTTP " ++ Nat.repr status) else .ok body

/-- One parsed `<img>` element: its `src` and `data-src` attributes. -/
structure ImgTag where
  src : Option String
  dataSrc : Option String
  deriving DecidableEq, Repr

/-- Lines 67 and 72: an attribute value is kept as-is when it is already a
valid absolute URL, otherwise resolved against the page URL with `urljoin`
(a urllib call, passed as the parameter `join`). -/
def resolveAttr (join : String → String → String) (pageUrl a : String) : String :=
  if is_valid_url a then a else join pageUrl a

/-- `img_urls.add(...)`: the Python `set` modelled as a first-occurrence
deduplicated list. -/
def addUrl (acc : List String) (u : String) : List String :=
  if u ∈ acc then acc else acc ++ [u]

/-- Handling of one optional attribute (`if src:` skips both a missing and
an empty attribute). -/
def addAttr (join : String → String → String) (pageUrl : String)
    (acc : List String) (a : Option String) : List String :=
  match a with
  | none => acc
  | some v => if v = "" then acc else addUrl acc (resolveAttr join pageUrl v)

/-- The extraction loop of lines 62-75. -/
def extractImgUrls (join : String → String → String) (pageUrl : String)
    (tags : List ImgTag) : List String :=
  tags.foldl
    (fun acc tag => addAttr join pageUrl (addAttr join pageUrl acc tag.src) tag.dataSrc) []

/-- The values one optional attribute contributes (missing and empty
values are skipped, per the `if src:` / `if data_src:` truthiness tests). -/
def optVal : Option String → List String
  | none => []
  | some v => if v = "" then [] else [v]

/-- The attribute values one element contributes. -/
def attrVals (t : ImgTag) : List String :=
  optVal t.src ++ optVal t.dataSrc

/-- All resolved attribute values of a page, before deduplication. -/
def resolvedAttrs (join : String → String → String) (pageUrl : String)
    (tags : List ImgTag) : List String :=
  ((tags.map attrVals).flatten).map (resolveAttr join pageUrl)

/-- `get_image_urls` (lines 52-82): fetch, parse, extract.  A
`RequestException` (transport failure or 4xx/5xx status) and any parse
failure are caught and an empty list is returned. -/
def get_image_urls (join : String → String → String)
    (parse : String → Except String (List ImgTag)) (pageUrl : String)
    (fetch : FetchOutcome) : List String :=
  match fetchPage fetch with
  | .error _ => []
  | .ok body =>
    match parse body with
    | .error _ => []
    | .ok tags => extractImgUrls join pageUrl tags

/-! ### `optimize_image` (lines 84-99) and `download_image` (lines 101-135) -/

/-- Pillow availability and the behaviour of one in-place re-encode:
`encode = .error` is a decode/encode failure (caught inside
`optimize_image`), `encode = .ok c` the re-encoded content. -/
structure PilEnv where
  available : Bool
  encode : Except String String
  deriving Repr

/-- `optimize_image` acting on the file's content: with the library missing
or a decode/encode failure the content is left untouched. -/
def optimize_image (pil : PilEnv) (content : String) : String :=
  if !pil.available then content
  else
    match pil.encode with
    | .error _ => content
    | .ok optimized => optimized

/-- Result of one `download_image` call: the returned `(success, text)`
pair, and the file it wrote, if any. -/
structure DlResult where
  outcome : Bool × String
  written : Option (String × String)
  deriving DecidableEq, Repr

/-- `download_image` (lines 101-135).  External effects are parameters:
the image GET's outcome, the result of `open`/`write` (an `OSError` lands
in the generic `except Exception` branch, line 134), and the Pillow
environment.  A `ValueError` from `urlparse` also lands in the generic
branch. -/
def download_image (imgFetch : FetchOutcome) (writeOk : Except String Unit)
    (pil : PilEnv) (img_url : String) (dirListing : List String) (index : Nat)
    (optimize : Bool) : DlResult :=
  match urlparse img_url with
  | none => ⟨(false, "Error processing " ++ img_url ++ ": Invalid IPv6 URL"), none⟩
  | some parts =>
    let filename := resolveFromPath dirListing parts.path index
    match imgFetch with
    | .transportError cause =>
      ⟨(false, "Failed to download " ++ img_url ++ ": " ++ cause), none⟩
    | .response status body =>
      if raiseForStatus status then
        ⟨(false, "Failed to download " ++ img_url ++ ": HTTP " ++ Nat.repr status), none⟩
      else
        match writeOk with
        | .error cause => ⟨(false, "Error processing " ++ img_url ++ ": " ++ cause), none⟩
        | .ok _ =>
          let content := if optimize && pil.available then optimize_image pil body else body
          ⟨(true, filename), some (filename, content)⟩

/-! ### The Concurrent Fetch Orchestrator (`main`, lines 196-218) -/

structure BatchSummary where
  found : Nat
  succeeded : Nat
  failed : Nat
  deriving DecidableEq, Repr

/-- The tally loop over `as_completed(futures)` (lines 205-212). -/
def tally (results : List (Bool × String)) : Nat × Nat :=
  results.foldl (fun acc r => if r.1 then (acc.1 + 1, acc.2) else (acc.1, acc.2 + 1)) (0, 0)

/-- One Download Task per discovered URL, in `enumerate` order (lines
200-203); `dl i u` is the outcome `download_image` returns for task `i`. -/
def taskOutcomes (dl : Nat → String → Bool × String) (imgUrls : List String) :
    List (Bool × String) :=
  imgUrls.enum.map fun p => dl p.1 p.2

/-- Lines 196-218: the pool (bounded by `maxWorkers`, which limits
parallelism only) executes every submitted task; outcomes are tallied in
completion order and reported with the found count. -/
def orchestrate (maxWorkers : Nat) (imgUrls : List String)
    (completionOrder : List (Bool × String)) : BatchSummary :=
  ⟨imgUrls.length, (tally completionOrder).1, (tally completionOrder).2⟩

/-! ### The batch tool (`examples/batch_scraper.py`) -/

/-- Per-page environment of one `scrape_url` call: the page fetch outcome
and the outcomes of its image downloads (in completion order). -/
structure PageEnv where
  fetch : FetchOutcome
  parse : String → Except String (List ImgTag)
  imgResults : List (Bool × String)

/-- `scrape_url` (batch_scraper.py lines 53-92), counts only: a page whose
fetch or parse failed yields no image URLs and contributes `(0, 0)`. -/
def scrape_url (join : String → String → String) (pageUrl : String)
    (env : PageEnv) : Nat × Nat :=
  let imgUrls := get_image_urls join env.parse pageUrl env.fetch
  if imgUrls = [] then (0, 0) else tally env.imgResults

/-- The per-URL loop of batch `main` (lines 124-132): every page is
processed and its counts accumulated, regardless of earlier failures. -/
def batchTotals (join : String → String → String)
    (pages : List (String × PageEnv)) : Nat × Nat :=
  pages.foldl
    (fun acc p => (acc.1 + (scrape_url join p.1 p.2).1, acc.2 + (scrape_url join p.1 p.2).2))
    (0, 0)

/-! ### Concurrent filename claiming (the §5 race model)

Each Download Task interacts with the shared destination directory in two
atomic phases: (1) resolve its filename from the directory's current
listing (lines 104-114), (2) create the file under that name (line 122,
`open(..., 'wb')`, which silently truncates an existing file, leaving the
listing unchanged).  A schedule is a sequence of task indices; a task's
first occurrence runs its resolve phase, its second occurrence the create
phase, and later occurrences are no-ops. -/

structure TaskSt where
  resolvedName : Option String
  created : Bool
  deriving DecidableEq, Repr

structure PoolSt where
  dirListing : List String
  tasks : List TaskSt
  deriving DecidableEq, Repr

/-- One scheduled step of task `i` over the image paths `paths`. -/
def poolStep (paths : List String) (s : PoolSt) (i : Nat) : PoolSt :=
  match s.tasks[i]? with
  | none => s
  | some t =>
    match t.resolvedName with
    | none =>
      let name := resolveFromPath s.dirListing (paths.getD i "") i
      { s with tasks := s.tasks.set i ⟨some name, false⟩ }
    | some name =>
      if t.created then s
      else
        ⟨if name ∈ s.dirListing then s.dirListing else s.dirListing ++ [name],
         s.tasks.set i ⟨some name, true⟩⟩

/-- Run a schedule from an initial directory listing. -/
def runPool (paths : List String) (dir0 : List String) (sched : List Nat) : PoolSt :=
  sched.foldl (poolStep paths) ⟨dir0, List.replicate paths.length ⟨none, false⟩⟩

/-- Progress of task `i`: 0 = not started, 1 = resolved, 2 = created. -/
def phase (ts : List TaskSt) (i : Nat) : Nat :=
  match ts[i]? with
  | none => 0
  | some t => if t.created then 2 else if t.resolvedName.isSome then 1 else 0

/-- The candidate filename of task `i` (before disambiguation). -/
def cand (paths : List String) (i : Nat) : String :=
  candidateFilename (paths.getD i "") i

/-- Whether task `j` has already created its file. -/
def createdFlag (ts : List TaskSt) (j : Nat) : Bool :=
  match ts[j]? with
  | none => false
  | some t => t.created

/-- Invariant of the pool run: lengths agree, every resolved task holds its
own candidate name, created tasks are resolved, and the directory listing
is the initial listing plus exactly the created tasks' candidates. -/
def poolInv (paths dir0 : List String) (s : PoolSt) : Prop :=
  s.tasks.length = paths.length ∧
  (∀ (i : Nat) (t : TaskSt), s.tasks[i]? = some t →
    ∀ nm, t.resolvedName = some nm → nm = cand paths i) ∧
  (∀ (i : Nat) (t : TaskSt), s.tasks[i]? = some t →
    t.created = true → t.resolvedName ≠ none) ∧
  s.dirListing.Perm (dir0 ++
    ((List.range paths.length).filter (createdFlag s.tasks)).map (cand paths))

/-! ## Theorems -/

/-! ### Decimal formatting -/

theorem foldl_lval (x : Nat) (l : List Char) :
    l.foldl (fun a c => a * 10 + chVal c) x = x * 10 ^ l.length + lval l := by
  induction l generalizing x with
  | nil => simp [lval]
  | cons c cs ih =>
    simp only [List.foldl_cons, List.length_cons, lval]
    rw [ih, ih (0 * 10 + chVal c)]
    ring

theorem lval_cons (c : Char) (l : List Char) :
    lval (c :: l) = chVal c * 10 ^ l.length + lval l := by
  simp only [lval, List.foldl_cons]
  rw [foldl_lval]
  have h0 : (0 : Nat) * 10 + chVal c = chVal c := by omega
  rw [h0]
  rfl

theorem lval_append (a b : List Char) :
    lval (a ++ b) = lval a * 10 ^ b.length + lval b := by
  simp only [lval, List.foldl_append]
  rw [foldl_lval]
  rfl

theorem chVal_digitChar : ∀ m, m < 10 → chVal (Nat.digitChar m) = m := by decide

theorem lval_replicate_zero (k : Nat) : lval (List.replicate k '0') = 0 := by
  induction k with
  | zero => simp [lval]
  | succ k ih =>
    rw [List.replicate_succ, lval_cons, ih]
    simp [chVal]

theorem lval_toDigitsCore (f : Nat) : ∀ n : Nat, ∀ ds : List Char, n < f →
    lval (Nat.toDigitsCore 10 f n ds) = n * 10 ^ ds.length + lval ds := by
  induction f with
  | zero => omega
  | succ f ih =>
    intro n ds h
    unfold Nat.toDigitsCore
    by_cases hdiv : n / 10 = 0
    · simp only [hdiv, if_pos]
      rw [lval_cons, chVal_digitChar _ (Nat.mod_lt _ (by omega))]
      have hn : n % 10 = n := by omega
      rw [hn]
    · simp only [hdiv, if_neg, ite_false]
      have hlt : n / 10 < f := by omega
      rw [ih (n / 10) (Nat.digitChar (n % 10) :: ds) hlt, lval_cons,
        chVal_digitChar _ (Nat.mod_lt _ (by omega))]
      have hpow : (10 : Nat) ^ (Nat.digitChar (n % 10) :: ds).length =
          10 ^ ds.length * 10 := by
        simp [pow_succ]
      rw [hpow]
      have key : ∀ a b P : Nat, a * 10 + b = n → a * (P * 10) + b * P = n * P := by
        intro a b P hab
        subst hab
        ring
      have hk := key (n / 10) (n % 10) (10 ^ ds.length) (by omega)
      omega

theorem lval_repr (n : Nat) : lval (Nat.repr n).data = n := by
  have h : (Nat.repr n).data = Nat.toDigitsCore 10 (n + 1) n [] := rfl
  rw [h, lval_toDigitsCore (n + 1) n [] (Nat.lt_succ_self n)]
  simp [lval]

theorem lval_pad4 (n : Nat) : lval (pad4 n).data = n := by
  unfold pad4
  by_cases h : (Nat.repr n).length < 4
  · simp only [h, if_pos]
    rw [lval_append, lval_replicate_zero, lval_repr]
    omega
  · simp only [h, if_neg, ite_false]
    exact lval_repr n

theorem pad4_injective : Function.Injective pad4 := by
  intro m n h
  have := congrArg (fun s : String => lval s.data) h
  simpa [lval_pad4] using this

theorem pad4_data_length (n : Nat) : 4 ≤ (pad4 n).data.length := by
  unfold pad4
  have hrfl : (Nat.repr n).length = (Nat.repr n).data.length := rfl
  by_cases h : (Nat.repr n).length < 4
  · simp only [h, if_pos]
    simp only [List.length_append, List.length_replicate]
    omega
  · simp only [h, if_neg, ite_false]
    omega

/-! ### Termination and freshness of the disambiguation loop -/

theorem loopCand_shift (base ext filename : String) (counter j : Nat) :
    loopCand base ext (base ++ "_" ++ pad4 counter ++ ext) (counter + 1) j =
      loopCand base ext filename counter (j + 1) := by
  cases j with
  | zero => simp [loopCand]
  | succ k =>
    simp only [loopCand]
    have h : counter + 1 + k = counter + (k + 1) := by omega
    rw [h]

theorem findUnique_not_mem (dir : List String) (base ext : String) :
    ∀ fuel filename counter,
      (∃ j, j < fuel ∧ loopCand base ext filename counter j ∉ dir) →
      findUnique dir base ext fuel filename counter ∉ dir := by
  intro fuel
  induction fuel with
  | zero =>
    intro fn c h
    obtain ⟨j, hj, _⟩ := h
    omega
  | succ f ih =>
    intro fn c h
    obtain ⟨j, hj, hmem⟩ := h
    unfold findUnique
    by_cases hfn : fn ∈ dir
    · simp only [hfn, if_true]
      apply ih
      cases j with
      | zero => exact absurd hfn (by simpa [loopCand] using hmem)
      | succ k =>
        refine ⟨k, by omega, ?_⟩
        rw [loopCand_shift base ext fn c k]
        exact hmem
    · simp [hfn]

theorem findUnique_shape (dir : List String) (base ext : String) :
    ∀ fuel filename counter,
      findUnique dir base ext fuel filename counter = filename ∨
      ∃ k, counter ≤ k ∧
        findUnique dir base ext fuel filename counter = base ++ "_" ++ pad4 k ++ ext := by
  intro fuel
  induction fuel with
  | zero => intro fn c; left; rfl
  | succ f ih =>
    intro fn c
    unfold findUnique
    by_cases hfn : fn ∈ dir
    · simp only [hfn, if_true]
      rcases ih (base ++ "_" ++ pad4 c ++ ext) (c + 1) with h | ⟨k, hk, h⟩
      · right; exact ⟨c, Nat.le_refl c, h⟩
      · right; exact ⟨k, by omega, h⟩
    · left; simp [hfn]

theorem findUnique_of_not_mem (dir : List String) (base ext fn : String)
    (c fuel : Nat) (h : fn ∉ dir) :
    findUnique dir base ext (fuel + 1) fn c = fn := by
  simp [findUnique, h]

/-- `os.path.splitext` splits its argument: base and extension concatenate
back to the input. -/
theorem splitext_append (p : String) : (splitext p).1 ++ (splitext p).2 = p := by
  apply String.ext
  rw [String.data_append]
  have key : (p.data.reverse.dropWhile notDot).reverse ++
      (p.data.reverse.takeWhile notDot).reverse = p.data := by
    rw [← List.reverse_append, List.takeWhile_append_dropWhile, List.reverse_reverse]
  simp only [splitext]
  cases hdw : p.data.reverse.dropWhile notDot with
  | nil => simp
  | cons hd baseRev =>
    rw [hdw] at key
    by_cases hall : baseRev.all (fun c => c = '.')
    · simp [hall]
    · simp only [hall, Bool.false_eq_true, if_false]
      generalize hT : (List.takeWhile notDot p.data.reverse).reverse = T at key ⊢
      rw [← key]
      simp [List.reverse_cons, List.append_assoc]

/-- The successive names tried by the loop are pairwise distinct (when the
starting name is `base ++ ext`, which `splitext` guarantees). -/
theorem loopCand_injective (base ext : String) (c : Nat) :
    Function.Injective (loopCand base ext (base ++ ext) c) := by
  intro i j h
  cases i with
  | zero =>
    cases j with
    | zero => rfl
    | succ k =>
      exfalso
      have hdata := congrArg String.data h
      simp only [loopCand, String.data_append] at hdata
      have hlen := congrArg List.length hdata
      simp only [List.length_append] at hlen
      have h4 := pad4_data_length (c + k)
      have h1 : ("_" : String).data.length = 1 := rfl
      omega
  | succ k =>
    cases j with
    | zero =>
      exfalso
      have hdata := congrArg String.data h
      simp only [loopCand, String.data_append] at hdata
      have hlen := congrArg List.length hdata
      simp only [List.length_append] at hlen
      have h4 := pad4_data_length (c + k)
      have h1 : ("_" : String).data.length = 1 := rfl
      omega
    | succ m =>
      have hdata := congrArg String.data h
      simp only [loopCand, String.data_append, List.append_assoc] at hdata
      have h1 := List.append_cancel_left hdata
      have h2 := List.append_cancel_left h1
      have h3 := List.append_cancel_right h2
      have h4 := pad4_injective (String.ext h3)
      omega

/-- A fresh name exists among `dir.length + 1` pairwise-distinct names: at
least one of them is not in `dir`. -/
theorem exists_fresh (dir : List String) (g : Nat → String)
    (hinj : ∀ i, i ≤ dir.length → ∀ j, j ≤ dir.length → g i = g j → i = j) :
    ∃ j, j ≤ dir.length ∧ g j ∉ dir := by
  by_contra hcon
  push_neg at hcon
  have hnodup : ((List.range (dir.length + 1)).map g).Nodup := by
    refine List.Nodup.map_on ?_ (List.nodup_range _)
    intro x hx y hy hxy
    rw [List.mem_range] at hx hy
    exact hinj x (by omega) y (by omega) hxy
  have hsub : ((List.range (dir.length + 1)).map g).toFinset ⊆ dir.toFinset := by
    intro x hx
    rw [List.mem_toFinset] at hx ⊢
    rw [List.mem_map] at hx
    obtain ⟨j, hj, rfl⟩ := hx
    rw [List.mem_range] at hj
    exact hcon j (by omega)
  have hcard := Finset.card_le_card hsub
  rw [List.toFinset_card_of_nodup hnodup] at hcard
  simp only [List.length_map, List.length_range] at hcard
  have hle := dir.toFinset_card_le
  omega

/-- Core freshness property of the Filename Resolver: the returned name is
never one already present in the directory listing it consulted. -/
theorem resolveFromPath_not_mem (dir : List String) (path : String) (index : Nat) :
    resolveFromPath dir path index ∉ dir := by
  simp only [resolveFromPath]
  have hcat := splitext_append (candidateFilename path index)
  set be := splitext (candidateFilename path index) with hbe
  rw [← hcat]
  apply findUnique_not_mem
  obtain ⟨j, hj, hmem⟩ := exists_fresh dir (loopCand be.1 be.2 (be.1 ++ be.2) 1)
    (fun i _ j _ hEq => loopCand_injective be.1 be.2 1 hEq)
  exact ⟨j, by omega, hmem⟩

theorem resolveFromPath_def (dir : List String) (path : String) (index : Nat) :
    resolveFromPath dir path index =
      findUnique dir (splitext (candidateFilename path index)).1
        (splitext (candidateFilename path index)).2 (dir.length + 1)
        (candidateFilename path index) 1 := rfl

theorem resolveFromPath_of_not_mem (dir : List String) (path : String) (index : Nat)
    (h : candidateFilename path index ∉ dir) :
    resolveFromPath dir path index = candidateFilename path index := by
  rw [resolveFromPath_def]
  exact findUnique_of_not_mem _ _ _ _ _ _ h

/-- Splitting a name that ends in a literal `.jpg` extension, provided the
stem contains at least one non-dot character. -/
theorem splitext_append_jpg (X : String) (hX : ∃ c ∈ X.data, c ≠ '.') :
    splitext (X ++ ".jpg") = (X, ".jpg") := by
  simp only [splitext]
  have hdata : (X ++ ".jpg").data = X.data ++ ['.', 'j', 'p', 'g'] := by
    rw [String.data_append]
  rw [hdata, List.reverse_append]
  have hrev : (['.', 'j', 'p', 'g'] : List Char).reverse = ['g', 'p', 'j', '.'] := rfl
  rw [hrev]
  have hg : notDot 'g' = true := rfl
  have hp : notDot 'p' = true := rfl
  have hj : notDot 'j' = true := rfl
  have hdot : notDot '.' = false := rfl
  have htake : List.takeWhile notDot (['g', 'p', 'j', '.'] ++ X.data.reverse) =
      ['g', 'p', 'j'] := by
    simp [List.takeWhile_cons, hg, hp, hj, hdot]
  have hdrop : List.dropWhile notDot (['g', 'p', 'j', '.'] ++ X.data.reverse) =
      '.' :: X.data.reverse := by
    simp [List.dropWhile_cons, hg, hp, hj, hdot]
  rw [htake, hdrop]
  have hall : X.data.reverse.all (fun c => c = '.') = false := by
    obtain ⟨c, hc, hne⟩ := hX
    rw [List.all_eq_false]
    exact ⟨c, List.mem_reverse.mpr hc, by simpa using hne⟩
  have h1 : (⟨X.data.reverse.reverse⟩ : String) = X := by
    apply String.ext
    simp
  simp only [hall, Bool.false_eq_true, if_false, h1]
  rfl

/-! ### C7 — the resolver never returns a name present in the listing -/

/-- C7: for every destination-directory state, the Filename Resolver never
returns a name already present in the listing at resolution time, and when
the candidate name is already present the returned name carries a numeric
suffix between the base and the extension — so a re-run of the same batch
never overwrites an existing file. -/
theorem C7_resolver_never_returns_existing_name (dir : List String) (path : String)
    (index : Nat) :
    resolveFromPath dir path index ∉ dir ∧
    (candidateFilename path index ∈ dir →
      ∃ k, 1 ≤ k ∧ resolveFromPath dir path index =
        (splitext (candidateFilename path index)).1 ++ "_" ++ pad4 k ++
          (splitext (candidateFilename path index)).2) := by
  refine ⟨resolveFromPath_not_mem dir path index, fun hmem => ?_⟩
  rcases findUnique_shape dir (splitext (candidateFilename path index)).1
      (splitext (candidateFilename path index)).2 (dir.length + 1)
      (candidateFilename path index) 1 with h | ⟨k, hk, h⟩
  · exfalso
    have hr := resolveFromPath_not_mem dir path index
    rw [resolveFromPath_def, h] at hr
    exact hr hmem
  · exact ⟨k, hk, by rw [resolveFromPath_def, h]⟩

theorem C7_witness :
    resolveFromPath ["a.jpg"] "/a.jpg" 0 ∉ ["a.jpg"] ∧
    ∃ k, 1 ≤ k ∧ resolveFromPath ["a.jpg"] "/a.jpg" 0 =
      (splitext (candidateFilename "/a.jpg" 0)).1 ++ "_" ++ pad4 k ++
        (splitext (candidateFilename "/a.jpg" 0)).2 :=
  ⟨(C7_resolver_never_returns_existing_name ["a.jpg"] "/a.jpg" 0).1,
   (C7_resolver_never_returns_existing_name ["a.jpg"] "/a.jpg" 0).2 (by decide)⟩

/-! ### C5 — fallback to the synthetic `image_<index>.jpg` name -/

/-- C5: when the URL path's last segment is empty, or its extension is not
one of the accepted raster extensions, the candidate is replaced with the
synthetic `image_<index>` name with the default `.jpg` extension, and the
name finally returned by the resolver still ends in `.jpg`. -/
theorem C5_fallback_synthetic_jpg (dir : List String) (path : String) (index : Nat)
    (h : basename path = "" ∨ hasImageExt (basename path) = false) :
    candidateFilename path index = "image_" ++ pad4 index ++ ".jpg" ∧
    ∃ stem, resolveFromPath dir path index = stem ++ ".jpg" := by
  have hcand : candidateFilename path index = "image_" ++ pad4 index ++ ".jpg" := by
    unfold candidateFilename
    rcases h with h | h
    · simp [h]
    · simp [h]
  refine ⟨hcand, ?_⟩
  have hi : ∃ c ∈ ("image_" ++ pad4 index).data, c ≠ '.' := by
    refine ⟨'i', ?_, by decide⟩
    rw [String.data_append]
    exact List.mem_append.mpr (Or.inl (by decide))
  have hsplit : splitext (candidateFilename path index) =
      ("image_" ++ pad4 index, ".jpg") := by
    rw [hcand]
    exact splitext_append_jpg ("image_" ++ pad4 index) hi
  rw [resolveFromPath_def, hsplit]
  rcases findUnique_shape dir ("image_" ++ pad4 index) ".jpg" (dir.length + 1)
      (candidateFilename path index) 1 with hs | ⟨k, _, hs⟩
  · exact ⟨"image_" ++ pad4 index, by rw [hs, hcand]⟩
  · exact ⟨"image_" ++ pad4 index ++ "_" ++ pad4 k, by rw [hs]⟩

theorem C5_witness :
    candidateFilename "/x.txt" 7 = "image_" ++ pad4 7 ++ ".jpg" ∧
    ∃ stem, resolveFromPath [] "/x.txt" 7 = stem ++ ".jpg" :=
  C5_fallback_synthetic_jpg [] "/x.txt" 7 (by decide)

/-! ### C6 — collision suffixes are zero-padded (`_0001`, not `_1`) -/

/-- C6 as stated is false: the second of two colliding references receives
a `_0001` suffix, not `_1`.  Concretely, with `a.jpg` already present the
resolver returns `a_0001.jpg`, not `a_1.jpg`. -/
theorem C6_counterexample :
    resolveFromPath ["a.jpg"] "/a.jpg" 0 = "a_0001.jpg" ∧
    resolveFromPath ["a.jpg"] "/a.jpg" 0 ≠ "a_1.jpg" := by
  decide

/-- The `while` loop stops at the first fresh name: the result is the
`j`-th tested candidate for some `j`, that candidate is free, and every
earlier tested candidate was present in the directory. -/
theorem findUnique_spec (dir : List String) (base ext : String) :
    ∀ fuel filename counter,
      (∃ j, j < fuel ∧ loopCand base ext filename counter j ∉ dir) →
      ∃ j, j < fuel ∧
        findUnique dir base ext fuel filename counter =
          loopCand base ext filename counter j ∧
        loopCand base ext filename counter j ∉ dir ∧
        ∀ m, m < j → loopCand base ext filename counter m ∈ dir := by
  intro fuel
  induction fuel with
  | zero =>
    intro fn c h
    obtain ⟨j, hj, -⟩ := h
    omega
  | succ f ih =>
    intro fn c h
    by_cases hfn : fn ∈ dir
    · obtain ⟨j, hj, hmem⟩ := h
      have hj0 : j ≠ 0 := by
        intro h0
        subst h0
        exact hmem hfn
      obtain ⟨j', rfl⟩ : ∃ j', j = j' + 1 := ⟨j - 1, by omega⟩
      have hex : ∃ j0, j0 < f ∧
          loopCand base ext (base ++ "_" ++ pad4 c ++ ext) (c + 1) j0 ∉ dir := by
        refine ⟨j', by omega, ?_⟩
        rw [loopCand_shift base ext fn c j']
        exact hmem
      obtain ⟨j0, hj0f, heq, hnotin, hmin⟩ := ih (base ++ "_" ++ pad4 c ++ ext) (c + 1) hex
      refine ⟨j0 + 1, by omega, ?_, ?_, ?_⟩
      · show findUnique dir base ext (f + 1) fn c = _
        unfold findUnique
        simp only [hfn, if_true]
        rw [heq, loopCand_shift base ext fn c j0]
      · rw [← loopCand_shift base ext fn c j0]
        exact hnotin
      · intro m hm
        cases m with
        | zero => exact hfn
        | succ m' =>
          rw [← loopCand_shift base ext fn c m']
          exact hmin m' (by omega)
    · refine ⟨0, by omega, ?_, hfn, ?_⟩
      · show findUnique dir base ext (f + 1) fn c = fn
        unfold findUnique
        simp [hfn]
      · intro m hm
        exact absurd hm (by omega)

/-- C6 amended: when the candidate filename already exists, the resolver
appends an incrementing numeric suffix, zero-padded to four digits, before
the extension — `name_0001.ext`, then `name_0002.ext`, and so on — until a
non-existing name is found: the returned name is the `name_<k>` variant for
the least `k ≥ 1` absent from the directory, every earlier variant being
present; in particular the second of two colliding references receives the
`_0001` suffix. -/
theorem C6_amended_padded_suffix (dir : List String) (path : String) (index : Nat)
    (h1 : candidateFilename path index ∈ dir) :
    ∃ k, 1 ≤ k ∧
      resolveFromPath dir path index =
        (splitext (candidateFilename path index)).1 ++ "_" ++ pad4 k ++
          (splitext (candidateFilename path index)).2 ∧
      resolveFromPath dir path index ∉ dir ∧
      (∀ m, 1 ≤ m → m < k →
        (splitext (candidateFilename path index)).1 ++ "_" ++ pad4 m ++
          (splitext (candidateFilename path index)).2 ∈ dir) ∧
      pad4 1 = "0001" ∧ pad4 2 = "0002" := by
  have hcat := splitext_append (candidateFilename path index)
  set be := splitext (candidateFilename path index) with hbe
  have hex : ∃ j, j < dir.length + 1 ∧
      loopCand be.1 be.2 (candidateFilename path index) 1 j ∉ dir := by
    obtain ⟨j, hj, hmem⟩ := exists_fresh dir (loopCand be.1 be.2 (be.1 ++ be.2) 1)
      (fun i _ j _ hEq => loopCand_injective be.1 be.2 1 hEq)
    rw [hcat] at hmem
    exact ⟨j, by omega, hmem⟩
  obtain ⟨j, hjlt, heq, hnotin, hmin⟩ :=
    findUnique_spec dir be.1 be.2 (dir.length + 1) (candidateFilename path index) 1 hex
  have hres : resolveFromPath dir path index =
      loopCand be.1 be.2 (candidateFilename path index) 1 j := by
    rw [resolveFromPath_def]
    exact heq
  have hj0 : j ≠ 0 := by
    intro h0
    rw [h0] at hnotin
    exact hnotin h1
  obtain ⟨k', rfl⟩ : ∃ k', j = k' + 1 := ⟨j - 1, by omega⟩
  refine ⟨k' + 1, by omega, ?_, ?_, ?_, rfl, rfl⟩
  · rw [hres]
    show be.1 ++ "_" ++ pad4 (1 + k') ++ be.2 = be.1 ++ "_" ++ pad4 (k' + 1) ++ be.2
    rw [Nat.add_comm 1 k']
  · rw [hres]
    exact hnotin
  · intro m hm1 hmk
    obtain ⟨m', rfl⟩ : ∃ m', m = m' + 1 := ⟨m - 1, by omega⟩
    have hmem := hmin (m' + 1) (by omega)
    have h2 : loopCand be.1 be.2 (candidateFilename path index) 1 (m' + 1) =
        be.1 ++ "_" ++ pad4 (1 + m') ++ be.2 := rfl
    rw [h2, Nat.add_comm 1 m'] at hmem
    exact hmem

theorem C6_witness :
    (∃ k, 1 ≤ k ∧
      resolveFromPath ["a.jpg", "a_0001.jpg"] "/a.jpg" 0 =
        (splitext (candidateFilename "/a.jpg" 0)).1 ++ "_" ++ pad4 k ++
          (splitext (candidateFilename "/a.jpg" 0)).2 ∧
      resolveFromPath ["a.jpg", "a_0001.jpg"] "/a.jpg" 0 ∉ ["a.jpg", "a_0001.jpg"] ∧
      (∀ m, 1 ≤ m → m < k →
        (splitext (candidateFilename "/a.jpg" 0)).1 ++ "_" ++ pad4 m ++
          (splitext (candidateFilename "/a.jpg" 0)).2 ∈ ["a.jpg", "a_0001.jpg"]) ∧
      pad4 1 = "0001" ∧ pad4 2 = "0002") ∧
    resolveFromPath ["a.jpg", "a_0001.jpg"] "/a.jpg" 0 = "a_0002.jpg" :=
  ⟨C6_amended_padded_suffix ["a.jpg", "a_0001.jpg"] "/a.jpg" 0 (by decide), by decide⟩

/-! ### C4 — the URL Validator -/

/-- C4: the URL Validator is a total boolean function (a `ValueError` from
parsing yields `False`, never a fault), and it accepts exactly the strings
that parse with scheme `http`/`https` and a non-empty host. -/
theorem C4_validator_boolean_characterisation (url : String) :
    is_valid_url url = true ↔
      ∃ p, urlparse url = some p ∧ (p.scheme = "http" ∨ p.scheme = "https") ∧
        p.netloc ≠ "" := by
  unfold is_valid_url
  cases hp : urlparse url with
  | none => simp
  | some r =>
    simp only [Bool.and_eq_true, Bool.or_eq_true, decide_eq_true_eq, Option.some.injEq]
    constructor
    · rintro ⟨hsch, hnet⟩
      exact ⟨r, rfl, hsch, by simpa using hnet⟩
    · rintro ⟨p, hp', hsch, hnet⟩
      cases hp'
      exact ⟨hsch, by simpa using hnet⟩

theorem C4_witness :
    is_valid_url "https://example.com" = true ∧ is_valid_url "example.com" = false := by
  constructor
  · apply (C4_validator_boolean_characterisation "https://example.com").mpr
    exact ⟨⟨"https", "example.com", ""⟩, by decide, by decide, by decide⟩
  · decide

/-! ### C10 — `download_image` is total at its interface -/

/-- C10: for every input and every environment, `download_image` returns a
tagged pair: `(True, the resolved filename)` on success, and `(False, a
message naming the source image URL)` on any transport error or other
exception. -/
theorem C10_download_total_tagged_outcome (imgFetch : FetchOutcome)
    (writeOk : Except String Unit) (pil : PilEnv) (img_url : String)
    (dir : List String) (index : Nat) (optimize : Bool) :
    (∃ parts, urlparse img_url = some parts ∧
      (download_image imgFetch writeOk pil img_url dir index optimize).outcome =
        (true, resolveFromPath dir parts.path index)) ∨
    (∃ pre post,
      (download_image imgFetch writeOk pil img_url dir index optimize).outcome =
        (false, pre ++ img_url ++ post)) := by
  unfold download_image
  cases hp : urlparse img_url with
  | none => exact Or.inr ⟨"Error processing ", ": Invalid IPv6 URL", rfl⟩
  | some parts =>
    cases imgFetch with
    | transportError cause =>
      refine Or.inr ⟨"Failed to download ", ": " ++ cause, ?_⟩
      simp [String.append_assoc]
    | response status body =>
      cases hs : raiseForStatus status with
      | true =>
        refine Or.inr ⟨"Failed to download ", ": HTTP " ++ Nat.repr status, ?_⟩
        simp [hs, String.append_assoc]
      | false =>
        cases writeOk with
        | error cause =>
          refine Or.inr ⟨"Error processing ", ": " ++ cause, ?_⟩
          simp [hs, String.append_assoc]
        | ok u => exact Or.inl ⟨parts, rfl, by simp [hs]⟩

/-! ### C9 — an Image Optimizer failure never changes the Outcome -/

/-- C9: when the download itself succeeded and the optimize flag is set, a
failing optimizer (library unavailable, or decode/encode error) leaves the
Outcome a success with the resolved filename, and the downloaded file keeps
its original content; the Outcome is the same for every encode result. -/
theorem C9_optimizer_failure_never_escalates (status : Nat)
    (body cause img_url : String) (dir : List String) (index : Nat) (avail : Bool)
    (parts : UrlParts) (hp : urlparse img_url = some parts)
    (hs : raiseForStatus status = false) :
    download_image (.response status body) (.ok ()) ⟨avail, .error cause⟩
        img_url dir index true =
      ⟨(true, resolveFromPath dir parts.path index),
       some (resolveFromPath dir parts.path index, body)⟩ ∧
    ∀ enc : Except String String,
      (download_image (.response status body) (.ok ()) ⟨avail, enc⟩
          img_url dir index true).outcome =
        (true, resolveFromPath dir parts.path index) := by
  constructor
  · unfold download_image
    rw [hp]
    cases avail <;> simp [hs, optimize_image]
  · intro enc
    unfold download_image
    rw [hp]
    simp [hs]

theorem C9_witness :
    download_image (.response 200 "IMG") (.ok ()) ⟨true, .error "boom"⟩
        "http://x/a.jpg" [] 0 true =
      ⟨(true, resolveFromPath [] "/a.jpg" 0), some (resolveFromPath [] "/a.jpg" 0, "IMG")⟩ :=
  (C9_optimizer_failure_never_escalates 200 "IMG" "boom" "http://x/a.jpg" [] 0 true
    ⟨"http", "x", "/a.jpg"⟩ (by decide) (by decide)).1

/-! ### C1 — every task yields exactly one tallied Outcome -/

theorem tally_fst_add_snd (l : List (Bool × String)) :
    (tally l).1 + (tally l).2 = l.length := by
  suffices h : ∀ a b : Nat,
      (l.foldl (fun acc r => if r.1 then (acc.1 + 1, acc.2) else (acc.1, acc.2 + 1)) (a, b)).1 +
      (l.foldl (fun acc r => if r.1 then (acc.1 + 1, acc.2) else (acc.1, acc.2 + 1)) (a, b)).2 =
        a + b + l.length by
    simpa [tally] using h 0 0
  induction l with
  | nil => intro a b; simp
  | cons r rs ih =>
    intro a b
    cases hr : r.1
    · simp only [List.foldl_cons, List.length_cons, hr, Bool.false_eq_true, if_false]
      rw [ih]
      omega
    · simp only [List.foldl_cons, List.length_cons, hr, if_true]
      rw [ih]
      omega

/-- C1: every Download Task contributes exactly one Outcome to the tally,
none is dropped: for every worker cap and every completion order (any
permutation of the per-task outcomes), the Batch Summary satisfies
`succeeded + failed = N = found`. -/
theorem C1_summary_counts (maxWorkers : Nat) (dl : Nat → String → Bool × String)
    (imgUrls : List String) (order : List (Bool × String))
    (hperm : order.Perm (taskOutcomes dl imgUrls)) :
    (orchestrate maxWorkers imgUrls order).succeeded +
      (orchestrate maxWorkers imgUrls order).failed = imgUrls.length ∧
    (orchestrate maxWorkers imgUrls order).found = imgUrls.length := by
  constructor
  · show (tally order).1 + (tally order).2 = imgUrls.length
    rw [tally_fst_add_snd, hperm.length_eq]
    simp [taskOutcomes]
  · rfl

theorem C1_witness :
    (orchestrate 5 ["a", "b", "c"]
        ((taskOutcomes (fun i _ => (decide (i % 2 = 0), "r")) ["a", "b", "c"]).reverse)).succeeded +
      (orchestrate 5 ["a", "b", "c"]
        ((taskOutcomes (fun i _ => (decide (i % 2 = 0), "r")) ["a", "b", "c"]).reverse)).failed = 3 ∧
    (orchestrate 5 ["a", "b", "c"]
        ((taskOutcomes (fun i _ => (decide (i % 2 = 0), "r")) ["a", "b", "c"]).reverse)).found = 3 := by
  have h := C1_summary_counts 5 (fun i _ => (decide (i % 2 = 0), "r")) ["a", "b", "c"]
    ((taskOutcomes (fun i _ => (decide (i % 2 = 0), "r")) ["a", "b", "c"]).reverse)
    (List.reverse_perm _)
  simpa using h

/-! ### C8 — fetch failure handling -/

/-- C8 as stated is false: a 300 response is non-2xx, yet the Page Fetcher
treats it as success and returns the body — `raise_for_status` raises only
for 4xx/5xx. -/
theorem C8_counterexample :
    ¬(200 ≤ 300 ∧ 300 ≤ 299) ∧
    fetchPage (.response 300 "<html>") = Except.ok "<html>" :=
  ⟨by decide, rfl⟩

theorem batchTotals_eq (join : String → String → String)
    (pages : List (String × PageEnv)) :
    batchTotals join pages =
      ((pages.map fun p => (scrape_url join p.1 p.2).1).sum,
       (pages.map fun p => (scrape_url join p.1 p.2).2).sum) := by
  suffices h : ∀ (ps : List (String × PageEnv)) (a b : Nat),
      ps.foldl (fun acc p =>
        (acc.1 + (scrape_url join p.1 p.2).1, acc.2 + (scrape_url join p.1 p.2).2)) (a, b) =
      (a + (ps.map fun p => (scrape_url join p.1 p.2).1).sum,
       b + (ps.map fun p => (scrape_url join p.1 p.2).2).sum) by
    simpa [batchTotals] using h pages 0 0
  intro ps
  induction ps with
  | nil => intro a b; simp
  | cons p ps ih =>
    intro a b
    simp only [List.foldl_cons, List.map_cons, List.sum_cons]
    rw [ih]
    simp only [Prod.mk.injEq]
    refine ⟨by omega, by omega⟩

/-- C8 amended: a page fetch ending in a transport failure or a 4xx/5xx
status fails with an error carrying the original cause, and on any other
status the raw body text is returned; the failure is caught per page
(yielding an empty URL list), so the batch tool still processes the
remaining pages and sums every page's counts. -/
theorem C8_amended_fetch_errors :
    (∀ cause, fetchPage (.transportError cause) = .error cause) ∧
    (∀ status body, 400 ≤ status → status < 600 →
      fetchPage (.response status body) = .error ("HTTP " ++ Nat.repr status)) ∧
    (∀ status body, raiseForStatus status = false →
      fetchPage (.response status body) = .ok body) ∧
    (∀ (join : String → String → String) (pageUrl : String)
      (parse : String → Except String (List ImgTag)) (fetch : FetchOutcome) (e : String),
      fetchPage fetch = .error e → get_image_urls join parse pageUrl fetch = []) ∧
    (∀ (join : String → String → String) (pages : List (String × PageEnv)),
      batchTotals join pages =
        ((pages.map fun p => (scrape_url join p.1 p.2).1).sum,
         (pages.map fun p => (scrape_url join p.1 p.2).2).sum)) := by
  refine ⟨fun cause => rfl, ?_, ?_, ?_, fun join pages => batchTotals_eq join pages⟩
  · intro status body h1 h2
    have hrs : raiseForStatus status = true := by
      unfold raiseForStatus
      simp [h1, h2]
    simp [fetchPage, hrs]
  · intro status body hrs
    simp [fetchPage, hrs]
  · intro join pageUrl parse fetch e he
    unfold get_image_urls
    rw [he]

theorem C8_witness :
    fetchPage (.response 404 "x") = .error ("HTTP " ++ Nat.repr 404) ∧
    fetchPage (.response 200 "ok") = .ok "ok" ∧
    get_image_urls (fun _ a => a) (fun _ => .ok []) "http://s" (.transportError "down") = [] :=
  ⟨C8_amended_fetch_errors.2.1 404 "x" (by decide) (by decide),
   C8_amended_fetch_errors.2.2.1 200 "ok" (by decide),
   C8_amended_fetch_errors.2.2.2.1 (fun _ a => a) "http://s" (fun _ => .ok [])
     (.transportError "down") "down" rfl⟩

/-! ### C3 — the Image URL Extractor deduplicates -/

theorem mem_addUrl (x : String) (acc : List String) (u : String) :
    x ∈ addUrl acc u ↔ x ∈ acc ∨ x = u := by
  unfold addUrl
  by_cases h : u ∈ acc
  · simp only [h, if_true]
    constructor
    · exact Or.inl
    · rintro (hx | rfl)
      · exact hx
      · exact h
  · simp [h, List.mem_append]

theorem addUrl_nodup (acc : List String) (u : String) (h : acc.Nodup) :
    (addUrl acc u).Nodup := by
  unfold addUrl
  by_cases hu : u ∈ acc
  · simp [hu, h]
  · simp only [hu, Bool.false_eq_true, if_false]
    refine List.Nodup.append h (List.nodup_singleton u) ?_
    intro a ha hb
    rw [List.mem_singleton] at hb
    subst hb
    exact hu ha

theorem foldl_addUrl_nodup (l : List String) :
    ∀ acc : List String, acc.Nodup → (l.foldl addUrl acc).Nodup := by
  induction l with
  | nil => intro acc h; exact h
  | cons u us ih =>
    intro acc h
    exact ih (addUrl acc u) (addUrl_nodup acc u h)

theorem mem_foldl_addUrl (l : List String) :
    ∀ (acc : List String) (x : String), x ∈ l.foldl addUrl acc ↔ x ∈ acc ∨ x ∈ l := by
  induction l with
  | nil => intro acc x; simp
  | cons u us ih =>
    intro acc x
    simp only [List.foldl_cons]
    rw [ih]
    rw [mem_addUrl]
    simp only [List.mem_cons]
    tauto

theorem foldl_addUrl_eq_append (l : List String) :
    ∀ acc : List String, l.Nodup → (∀ x ∈ l, x ∉ acc) → l.foldl addUrl acc = acc ++ l := by
  induction l with
  | nil => intro acc _ _; simp
  | cons u us ih =>
    intro acc hnd hdisj
    simp only [List.foldl_cons]
    have hu : u ∉ acc := hdisj u (by simp)
    have h1 : addUrl acc u = acc ++ [u] := by simp [addUrl, hu]
    have h2 : ∀ x ∈ us, x ∉ acc ++ [u] := by
      intro x hx hmem
      rcases List.mem_append.mp hmem with hxa | hxu
      · exact hdisj x (List.mem_cons_of_mem _ hx) hxa
      · rw [List.mem_singleton] at hxu
        subst hxu
        exact (List.nodup_cons.mp hnd).1 hx
    rw [h1, ih (acc ++ [u]) (List.nodup_cons.mp hnd).2 h2]
    simp

theorem addAttr_eq_foldl (join : String → String → String) (pageUrl : String)
    (acc : List String) (a : Option String) :
    addAttr join pageUrl acc a =
      ((optVal a).map (resolveAttr join pageUrl)).foldl addUrl acc := by
  cases a with
  | none => rfl
  | some v =>
    by_cases hv : v = "" <;> simp [addAttr, optVal, hv]

theorem extract_eq_dedup (join : String → String → String) (pageUrl : String) :
    ∀ (tags : List ImgTag) (acc : List String),
      tags.foldl (fun acc tag =>
        addAttr join pageUrl (addAttr join pageUrl acc tag.src) tag.dataSrc) acc =
      (((tags.map attrVals).flatten).map (resolveAttr join pageUrl)).foldl addUrl acc := by
  intro tags
  induction tags with
  | nil => intro acc; rfl
  | cons t ts ih =>
    intro acc
    simp only [List.foldl_cons, List.map_cons, List.flatten_cons, List.map_append,
      List.foldl_append]
    rw [ih]
    congr 1
    simp only [attrVals, List.map_append, List.foldl_append]
    rw [addAttr_eq_foldl, addAttr_eq_foldl]

/-- C3: the Extractor's output has no duplicates (compared as resolved
absolute strings), contains exactly the resolved attribute values, and when
the N resolved values are pairwise distinct it is exactly that sequence of
N entries. -/
theorem C3_extractor_dedup (join : String → String → String) (pageUrl : String)
    (tags : List ImgTag) :
    (extractImgUrls join pageUrl tags).Nodup ∧
    (∀ u, u ∈ extractImgUrls join pageUrl tags ↔ u ∈ resolvedAttrs join pageUrl tags) ∧
    ((resolvedAttrs join pageUrl tags).Nodup →
      extractImgUrls join pageUrl tags = resolvedAttrs join pageUrl tags) := by
  have he : extractImgUrls join pageUrl tags =
      (resolvedAttrs join pageUrl tags).foldl addUrl [] := by
    unfold extractImgUrls resolvedAttrs
    exact extract_eq_dedup join pageUrl tags []
  refine ⟨?_, ?_, ?_⟩
  · rw [he]
    exact foldl_addUrl_nodup _ _ List.nodup_nil
  · intro u
    rw [he, mem_foldl_addUrl]
    simp
  · intro hnd
    rw [he, foldl_addUrl_eq_append _ _ hnd (by simp)]
    simp

/-! ### C2 — concurrent filename claiming -/

/-- C2's unconditional uniqueness part is false: two tasks whose paths end
in the same basename, interleaved as resolve/resolve/create/create over an
empty directory, both claim `x.jpg`; two Download Tasks claimed the same
output filename and only one file exists afterwards. -/
theorem C2_counterexample :
    ((runPool ["/x.jpg", "/x.jpg"] [] [0, 1, 0, 1]).tasks.map
        (fun t => t.resolvedName)) = [some "x.jpg", some "x.jpg"] ∧
    (runPool ["/x.jpg", "/x.jpg"] [] [0, 1, 0, 1]).dirListing = ["x.jpg"] := by
  decide

theorem mem_dir_of_inv (paths dir0 : List String) (s : PoolSt)
    (hinv : poolInv paths dir0 s) (x : String) (hx : x ∈ s.dirListing) :
    x ∈ dir0 ∨
      ∃ j, j < paths.length ∧ createdFlag s.tasks j = true ∧ x = cand paths j := by
  obtain ⟨-, -, -, hperm⟩ := hinv
  rcases List.mem_append.mp (hperm.mem_iff.mp hx) with h | h
  · exact Or.inl h
  · rw [List.mem_map] at h
    obtain ⟨j, hj, rfl⟩ := h
    rw [List.mem_filter] at hj
    obtain ⟨hjr, hjc⟩ := hj
    rw [List.mem_range] at hjr
    exact Or.inr ⟨j, hjr, hjc, rfl⟩

theorem cand_not_mem_dir (paths dir0 : List String) (s : PoolSt)
    (hfresh : ∀ i, i < paths.length → cand paths i ∉ dir0)
    (hdist : ∀ i, i < paths.length → ∀ j, j < paths.length →
      cand paths i = cand paths j → i = j)
    (hinv : poolInv paths dir0 s) (i : Nat) (t : TaskSt)
    (hti : s.tasks[i]? = some t) (hnc : t.created = false)
    (hlt : i < paths.length) :
    cand paths i ∉ s.dirListing := by
  intro hmem
  rcases mem_dir_of_inv paths dir0 s hinv _ hmem with h | ⟨j, hj, hcj, heq⟩
  · exact hfresh i hlt h
  · have hij : i = j := hdist i hlt j hj heq
    subst hij
    simp only [createdFlag, hti] at hcj
    rw [hnc] at hcj
    exact Bool.noConfusion hcj

theorem filter_update_perm (i : Nat) (p q : Nat → Bool)
    (hq : ∀ j, q j = if i = j then true else p j) (hpi : p i = false) :
    ∀ l : List Nat, l.Nodup → i ∈ l → (l.filter q).Perm (i :: l.filter p) := by
  intro l
  induction l with
  | nil => intro _ h; exact absurd h (List.not_mem_nil i)
  | cons a l ih =>
    intro hnd hmem
    obtain ⟨hal, hl⟩ := List.nodup_cons.mp hnd
    by_cases hai : a = i
    · subst hai
      have hqa : q a = true := by rw [hq]; simp
      have hfq : l.filter q = l.filter p := by
        apply List.filter_congr
        intro x hx
        rw [hq]
        have : a ≠ x := fun h => hal (h ▸ hx)
        simp [this]
      rw [List.filter_cons_of_pos hqa, hfq, List.filter_cons_of_neg (by simp [hpi])]
    · have hil : i ∈ l := by
        rcases List.mem_cons.mp hmem with h | h
        · exact absurd h.symm hai
        · exact h
      have hqa : q a = p a := by
        rw [hq, if_neg (fun h => hai h.symm)]
      cases hpa : p a with
      | true =>
        rw [List.filter_cons_of_pos (by rw [hqa]; exact hpa),
          List.filter_cons_of_pos hpa]
        exact ((ih hl hil).cons a).trans (List.Perm.swap i a _)
      | false =>
        rw [List.filter_cons_of_neg (by simp [hqa, hpa]),
          List.filter_cons_of_neg (by simp [hpa])]
        exact ih hl hil

theorem poolInv_init (paths dir0 : List String) :
    poolInv paths dir0 ⟨dir0, List.replicate paths.length ⟨none, false⟩⟩ := by
  refine ⟨List.length_replicate _ _, ?_, ?_, ?_⟩
  · intro i t hti nm hnm
    rw [List.getElem?_replicate] at hti
    by_cases hi : i < paths.length
    · simp only [hi, if_pos] at hti
      cases hti
      exact Option.noConfusion hnm
    · simp [hi] at hti
  · intro i t hti hc
    rw [List.getElem?_replicate] at hti
    by_cases hi : i < paths.length
    · simp only [hi, if_pos] at hti
      cases hti
      exact Bool.noConfusion hc
    · simp [hi] at hti
  · have hflt : (List.range paths.length).filter
        (createdFlag (List.replicate paths.length ⟨none, false⟩)) = [] := by
      rw [List.filter_eq_nil_iff]
      intro j hj
      rw [List.mem_range] at hj
      simp [createdFlag, List.getElem?_replicate, hj]
    show dir0.Perm (dir0 ++ ((List.range paths.length).filter
      (createdFlag (List.replicate paths.length ⟨none, false⟩))).map (cand paths))
    rw [hflt]
    simp

theorem poolInv_mk (paths dir0 dl : List String) (ts : List TaskSt)
    (h1 : ts.length = paths.length)
    (h2 : ∀ (i : Nat) (t : TaskSt), ts[i]? = some t →
      ∀ nm, t.resolvedName = some nm → nm = cand paths i)
    (h3 : ∀ (i : Nat) (t : TaskSt), ts[i]? = some t →
      t.created = true → t.resolvedName ≠ none)
    (h4 : dl.Perm (dir0 ++
      ((List.range paths.length).filter (createdFlag ts)).map (cand paths))) :
    poolInv paths dir0 ⟨dl, ts⟩ :=
  ⟨h1, h2, h3, h4⟩

theorem poolStep_eq_none (paths : List String) (s : PoolSt) (i : Nat)
    (hti : s.tasks[i]? = none) : poolStep paths s i = s := by
  unfold poolStep
  rw [hti]

theorem poolStep_eq_resolve (paths : List String) (s : PoolSt) (i : Nat) (t : TaskSt)
    (hti : s.tasks[i]? = some t) (hrn : t.resolvedName = none) :
    poolStep paths s i =
      ⟨s.dirListing,
       s.tasks.set i ⟨some (resolveFromPath s.dirListing (paths.getD i "") i), false⟩⟩ := by
  obtain ⟨rn, cr⟩ := t
  have hrn' : rn = none := hrn
  subst hrn'
  unfold poolStep
  rw [hti]

theorem poolStep_eq_noop (paths : List String) (s : PoolSt) (i : Nat) (t : TaskSt)
    (hti : s.tasks[i]? = some t) (nm : String) (hrn : t.resolvedName = some nm)
    (hc : t.created = true) :
    poolStep paths s i = s := by
  obtain ⟨rn, cr⟩ := t
  have hrn' : rn = some nm := hrn
  have hc' : cr = true := hc
  subst hrn'
  subst hc'
  unfold poolStep
  rw [hti]
  rfl

theorem poolStep_eq_create (paths : List String) (s : PoolSt) (i : Nat) (t : TaskSt)
    (hti : s.tasks[i]? = some t) (nm : String) (hrn : t.resolvedName = some nm)
    (hc : t.created = false) :
    poolStep paths s i =
      ⟨if nm ∈ s.dirListing then s.dirListing else s.dirListing ++ [nm],
       s.tasks.set i ⟨some nm, true⟩⟩ := by
  obtain ⟨rn, cr⟩ := t
  have hrn' : rn = some nm := hrn
  have hc' : cr = false := hc
  subst hrn'
  subst hc'
  unfold poolStep
  rw [hti]
  rfl

theorem poolInv_step (paths dir0 : List String)
    (hfresh : ∀ i, i < paths.length → cand paths i ∉ dir0)
    (hdist : ∀ i, i < paths.length → ∀ j, j < paths.length →
      cand paths i = cand paths j → i = j)
    (s : PoolSt) (hinv : poolInv paths dir0 s) (i : Nat) :
    poolInv paths dir0 (poolStep paths s i) := by
  obtain ⟨hlen, hres, hcr, hperm⟩ := hinv
  cases hti : s.tasks[i]? with
  | none =>
    rw [poolStep_eq_none paths s i hti]
    exact ⟨hlen, hres, hcr, hperm⟩
  | some t =>
    have hlt : i < paths.length := by
      obtain ⟨h, -⟩ := List.getElem?_eq_some_iff.mp hti
      omega
    have hlts : i < s.tasks.length := by omega
    cases hrn : t.resolvedName with
    | none =>
      have hnc : t.created = false := by
        cases hc : t.created with
        | false => rfl
        | true => exact absurd hrn (hcr i t hti hc)
      have hcnm : cand paths i ∉ s.dirListing :=
        cand_not_mem_dir paths dir0 s hfresh hdist ⟨hlen, hres, hcr, hperm⟩ i t hti hnc hlt
      have hname : resolveFromPath s.dirListing (paths.getD i "") i = cand paths i :=
        resolveFromPath_of_not_mem _ _ _ hcnm
      rw [poolStep_eq_resolve paths s i t hti hrn, hname]
      apply poolInv_mk
      · rw [List.length_set]
        exact hlen
      · intro k tk htk nm hnm
        by_cases hk : i = k
        · subst hk
          rw [List.getElem?_set_self hlts] at htk
          cases htk
          cases hnm
          rfl
        · rw [List.getElem?_set_ne hk] at htk
          exact hres k tk htk nm hnm
      · intro k tk htk hck
        by_cases hk : i = k
        · subst hk
          rw [List.getElem?_set_self hlts] at htk
          cases htk
          exact Bool.noConfusion hck
        · rw [List.getElem?_set_ne hk] at htk
          exact hcr k tk htk hck
      · have hfl : ∀ j ∈ List.range paths.length,
            createdFlag (s.tasks.set i ⟨some (cand paths i), false⟩) j =
              createdFlag s.tasks j := by
          intro j _
          by_cases hj : i = j
          · subst hj
            unfold createdFlag
            rw [List.getElem?_set_self hlts, hti]
            simp [hnc]
          · unfold createdFlag
            rw [List.getElem?_set_ne hj]
        rw [List.filter_congr hfl]
        exact hperm
    | some nm =>
      have hnmc : nm = cand paths i := hres i t hti nm hrn
      subst hnmc
      cases hc : t.created with
      | true =>
        rw [poolStep_eq_noop paths s i t hti _ hrn hc]
        exact ⟨hlen, hres, hcr, hperm⟩
      | false =>
        have hcnm : cand paths i ∉ s.dirListing :=
          cand_not_mem_dir paths dir0 s hfresh hdist ⟨hlen, hres, hcr, hperm⟩ i t hti hc hlt
        rw [poolStep_eq_create paths s i t hti _ hrn hc, if_neg hcnm]
        apply poolInv_mk
        · rw [List.length_set]
          exact hlen
        · intro k tk htk nm' hnm'
          by_cases hk : i = k
          · subst hk
            rw [List.getElem?_set_self hlts] at htk
            cases htk
            cases hnm'
            rfl
          · rw [List.getElem?_set_ne hk] at htk
            exact hres k tk htk nm' hnm'
        · intro k tk htk hck
          by_cases hk : i = k
          · subst hk
            rw [List.getElem?_set_self hlts] at htk
            cases htk
            simp
          · rw [List.getElem?_set_ne hk] at htk
            exact hcr k tk htk hck
        · have hflagi : createdFlag s.tasks i = false := by
            unfold createdFlag
            rw [hti]
            exact hc
          have hq : ∀ j, createdFlag (s.tasks.set i ⟨some (cand paths i), true⟩) j =
              if i = j then true else createdFlag s.tasks j := by
            intro j
            by_cases hj : i = j
            · subst hj
              unfold createdFlag
              rw [List.getElem?_set_self hlts]
              simp
            · unfold createdFlag
              rw [List.getElem?_set_ne hj, if_neg hj]
          have h5 := filter_update_perm i (createdFlag s.tasks)
            (createdFlag (s.tasks.set i ⟨some (cand paths i), true⟩)) hq hflagi
            (List.range paths.length) (List.nodup_range _) (List.mem_range.mpr hlt)
          have h6 := h5.map (cand paths)
          rw [List.map_cons] at h6
          have h1 : (s.dirListing ++ [cand paths i]).Perm
              ((dir0 ++ ((List.range paths.length).filter
                (createdFlag s.tasks)).map (cand paths)) ++ [cand paths i]) :=
            hperm.append_right _
          refine h1.trans ?_
          rw [List.append_assoc]
          have hstep1 : (((List.range paths.length).filter
              (createdFlag s.tasks)).map (cand paths) ++ [cand paths i]).Perm
              (cand paths i :: ((List.range paths.length).filter
                (createdFlag s.tasks)).map (cand paths)) := by
            exact List.perm_append_comm
          exact (List.Perm.append_left dir0 hstep1).trans
            (List.Perm.append_left dir0 h6.symm)

theorem phase_le_two (ts : List TaskSt) (i : Nat) : phase ts i ≤ 2 := by
  cases h : ts[i]? with
  | none => simp [phase, h]
  | some t =>
    simp only [phase, h]
    split_ifs <;> omega

theorem phase_step_ne (paths : List String) (s : PoolSt) (i j : Nat) (hji : j ≠ i) :
    phase (poolStep paths s j).tasks i = phase s.tasks i := by
  cases htj : s.tasks[j]? with
  | none => rw [poolStep_eq_none paths s j htj]
  | some t =>
    cases hrn : t.resolvedName with
    | none =>
      rw [poolStep_eq_resolve paths s j t htj hrn]
      show phase (s.tasks.set j
        ⟨some (resolveFromPath s.dirListing (paths.getD j "") j), false⟩) i =
        phase s.tasks i
      unfold phase
      rw [List.getElem?_set_ne hji]
    | some nm =>
      cases hc : t.created with
      | true => rw [poolStep_eq_noop paths s j t htj nm hrn hc]
      | false =>
        rw [poolStep_eq_create paths s j t htj nm hrn hc]
        show phase (s.tasks.set j ⟨some nm, true⟩) i = phase s.tasks i
        unfold phase
        rw [List.getElem?_set_ne hji]

theorem phase_step_self (paths : List String) (s : PoolSt) (i : Nat) (t : TaskSt)
    (hti : s.tasks[i]? = some t) (hlts : i < s.tasks.length)
    (hcr : t.created = true → t.resolvedName ≠ none) :
    min 2 (phase s.tasks i + 1) ≤ phase (poolStep paths s i).tasks i := by
  have hph : phase s.tasks i =
      if t.created then 2 else if t.resolvedName.isSome then 1 else 0 := by
    unfold phase
    rw [hti]
  cases hrn : t.resolvedName with
  | none =>
    have hnc : t.created = false := by
      cases hc : t.created with
      | false => rfl
      | true => exact absurd hrn (hcr hc)
    rw [poolStep_eq_resolve paths s i t hti hrn]
    show min 2 (phase s.tasks i + 1) ≤ phase (s.tasks.set i
      ⟨some (resolveFromPath s.dirListing (paths.getD i "") i), false⟩) i
    have h2 : phase (s.tasks.set i
        ⟨some (resolveFromPath s.dirListing (paths.getD i "") i), false⟩) i = 1 := by
      unfold phase
      rw [List.getElem?_set_self hlts]
      simp
    rw [h2, hph, hnc, hrn]
    simp
  | some nm =>
    cases hc : t.created with
    | false =>
      rw [poolStep_eq_create paths s i t hti nm hrn hc]
      show min 2 (phase s.tasks i + 1) ≤ phase (s.tasks.set i ⟨some nm, true⟩) i
      have h2 : phase (s.tasks.set i ⟨some nm, true⟩) i = 2 := by
        unfold phase
        rw [List.getElem?_set_self hlts]
        simp
      rw [h2]
      omega
    | true =>
      rw [poolStep_eq_noop paths s i t hti nm hrn hc, hph, hc]
      simp

theorem runPool_def (paths dir0 : List String) (sched : List Nat) :
    runPool paths dir0 sched =
      sched.foldl (poolStep paths) ⟨dir0, List.replicate paths.length ⟨none, false⟩⟩ := rfl

theorem runPool_inv_phase (paths dir0 : List String)
    (hfresh : ∀ i, i < paths.length → cand paths i ∉ dir0)
    (hdist : ∀ i, i < paths.length → ∀ j, j < paths.length →
      cand paths i = cand paths j → i = j) :
    ∀ (sched : List Nat) (s : PoolSt), poolInv paths dir0 s →
      poolInv paths dir0 (sched.foldl (poolStep paths) s) ∧
      ∀ i, i < paths.length →
        min 2 (phase s.tasks i + sched.count i) ≤
          phase (sched.foldl (poolStep paths) s).tasks i := by
  intro sched
  induction sched with
  | nil =>
    intro s hs
    refine ⟨hs, fun i hi => ?_⟩
    simp only [List.foldl_nil, List.count_nil, Nat.add_zero]
    exact Nat.min_le_right _ _
  | cons e rest ih =>
    intro s hs
    have hstep := poolInv_step paths dir0 hfresh hdist s hs e
    obtain ⟨hinv, hph⟩ := ih (poolStep paths s e) hstep
    refine ⟨by rw [List.foldl_cons]; exact hinv, fun i hi => ?_⟩
    have h2 := hph i hi
    by_cases hei : e = i
    · subst hei
      obtain ⟨hlen, -, hcr, -⟩ := hs
      have hlts : e < s.tasks.length := by omega
      have hsome : s.tasks[e]? = some s.tasks[e] := List.getElem?_eq_getElem hlts
      have h1 := phase_step_self paths s e s.tasks[e] hsome hlts (hcr e s.tasks[e] hsome)
      rw [List.foldl_cons, List.count_cons]
      simp only [beq_self_eq_true, if_true]
      omega
    · have h3 : phase (poolStep paths s e).tasks i = phase s.tasks i :=
        phase_step_ne paths s i e hei
      rw [h3] at h2
      rw [List.foldl_cons, List.count_cons]
      have hne : (e == i) = false := by
        simp [hei]
      simp only [hne, Bool.false_eq_true, if_false, Nat.add_zero]
      exact h2

theorem synthetic_name_injective (i j : Nat)
    (h : "image_" ++ pad4 i ++ ".jpg" = "image_" ++ pad4 j ++ ".jpg") : i = j := by
  have hdata := congrArg String.data h
  simp only [String.data_append, List.append_assoc] at hdata
  have h1 := List.append_cancel_left hdata
  have h2 := List.append_cancel_right h1
  exact pad4_injective (String.ext h2)

theorem cand_replicate_root (n : Nat) (i : Nat) (hi : i < n) :
    cand (List.replicate n "/") i = "image_" ++ pad4 i ++ ".jpg" := by
  unfold cand
  have h1 : (List.replicate n "/").getD i "" = "/" := by
    simp [List.getD, List.getElem?_replicate, hi]
  rw [h1]
  rfl

/-- C2 amended: when the tasks' candidate filenames are pairwise distinct
and absent from the initial directory — as with tasks that all fall back to
the synthetic `image_<index>.jpg` names against an empty directory — every
interleaving of resolve/create phases ends with task `i` claiming exactly
its own candidate: the claimed names are exactly the candidates, each
claimed by exactly one task (no duplicate, no gap), and the new files are
exactly the candidates.  (The unconditional claim fails: two tasks whose
candidates coincide can both claim the same name.) -/
theorem C2_amended_distinct_candidates_race_free (paths dir0 : List String)
    (sched : List Nat)
    (hfresh : ∀ i, i < paths.length → cand paths i ∉ dir0)
    (hdist : ∀ i, i < paths.length → ∀ j, j < paths.length →
      cand paths i = cand paths j → i = j)
    (hsched : ∀ i, i < paths.length → 2 ≤ sched.count i) :
    (runPool paths dir0 sched).tasks.map (fun t => t.resolvedName) =
      (List.range paths.length).map (fun i => some (cand paths i)) ∧
    (runPool paths dir0 sched).dirListing.Perm
      (dir0 ++ (List.range paths.length).map (cand paths)) := by
  obtain ⟨hinv, hph⟩ := runPool_inv_phase paths dir0 hfresh hdist sched
    ⟨dir0, List.replicate paths.length ⟨none, false⟩⟩ (poolInv_init paths dir0)
  rw [runPool_def]
  have hph0 : ∀ i, i < paths.length →
      phase (⟨dir0, List.replicate paths.length ⟨none, false⟩⟩ : PoolSt).tasks i = 0 := by
    intro i hi
    show phase (List.replicate paths.length ⟨none, false⟩) i = 0
    unfold phase
    rw [List.getElem?_replicate]
    simp [hi]
  have htask : ∀ i, i < paths.length → ∃ t : TaskSt,
      (sched.foldl (poolStep paths)
        ⟨dir0, List.replicate paths.length ⟨none, false⟩⟩).tasks[i]? = some t ∧
      t.created = true ∧ t.resolvedName = some (cand paths i) := by
    intro i hi
    have h2 := hph i hi
    rw [hph0 i hi] at h2
    have hc2 : 2 ≤ phase (sched.foldl (poolStep paths)
        ⟨dir0, List.replicate paths.length ⟨none, false⟩⟩).tasks i := by
      have := hsched i hi
      omega
    cases hti : (sched.foldl (poolStep paths)
        ⟨dir0, List.replicate paths.length ⟨none, false⟩⟩).tasks[i]? with
    | none =>
      have h0 : phase (sched.foldl (poolStep paths)
          ⟨dir0, List.replicate paths.length ⟨none, false⟩⟩).tasks i = 0 := by
        unfold phase
        rw [hti]
      rw [h0] at hc2
      exact absurd hc2 (by omega)
    | some t =>
      have hphase : phase (sched.foldl (poolStep paths)
          ⟨dir0, List.replicate paths.length ⟨none, false⟩⟩).tasks i =
          if t.created then 2 else if t.resolvedName.isSome then 1 else 0 := by
        unfold phase
        rw [hti]
      rw [hphase] at hc2
      cases hcb : t.created with
      | false =>
        rw [hcb] at hc2
        simp only [Bool.false_eq_true, if_false] at hc2
        split_ifs at hc2 <;> omega
      | true =>
        obtain ⟨hlen, hres, hcr, hperm⟩ := hinv
        have hrn := hcr i t hti hcb
        cases hrno : t.resolvedName with
        | none => exact absurd hrno hrn
        | some nm =>
          have hnm := hres i t hti nm hrno
          exact ⟨t, rfl, hcb, by rw [hrno, hnm]⟩
  constructor
  · apply List.ext_getElem?
    intro k
    rw [List.getElem?_map, List.getElem?_map]
    by_cases hk : k < paths.length
    · obtain ⟨t, hti, hct, hrn⟩ := htask k hk
      rw [hti, List.getElem?_range hk]
      simp [hrn]
    · have hlen : (sched.foldl (poolStep paths)
          ⟨dir0, List.replicate paths.length ⟨none, false⟩⟩).tasks.length =
          paths.length := hinv.1
      rw [List.getElem?_eq_none (by omega), List.getElem?_eq_none (by simpa using hk)]
      rfl
  · obtain ⟨hlen, hres, hcr, hperm⟩ := hinv
    have hfilter : (List.range paths.length).filter
        (createdFlag (sched.foldl (poolStep paths)
          ⟨dir0, List.replicate paths.length ⟨none, false⟩⟩).tasks) =
        List.range paths.length := by
      rw [List.filter_eq_self]
      intro j hj
      rw [List.mem_range] at hj
      obtain ⟨t, hti, hct, -⟩ := htask j hj
      unfold createdFlag
      rw [hti]
      exact hct
    rw [hfilter] at hperm
    exact hperm

theorem C2_witness :
    ((runPool (List.replicate 50 "/") [] (List.range 50 ++ List.range 50)).tasks.map
        (fun t => t.resolvedName) =
      (List.range (List.replicate 50 "/").length).map
        (fun i => some (cand (List.replicate 50 "/") i))) ∧
    (runPool (List.replicate 50 "/") [] (List.range 50 ++ List.range 50)).dirListing.Perm
      ([] ++ (List.range (List.replicate 50 "/").length).map (cand (List.replicate 50 "/"))) :=
  C2_amended_distinct_candidates_race_free (List.replicate 50 "/") []
    (List.range 50 ++ List.range 50)
    (fun i _ => List.not_mem_nil _)
    (fun i hi j hj h => by
      rw [List.length_replicate] at hi hj
      rw [cand_replicate_root 50 i hi, cand_replicate_root 50 j hj] at h
      exact synthetic_name_injective i j h)
    (by decide)

theorem C3_witness :
    extractImgUrls (fun u a => u ++ a) "http://site/page"
        [⟨some "/a.png", none⟩, ⟨none, some "b.gif"⟩, ⟨some "http://other/c.jpg", none⟩] =
      resolvedAttrs (fun u a => u ++ a) "http://site/page"
        [⟨some "/a.png", none⟩, ⟨none, some "b.gif"⟩, ⟨some "http://other/c.jpg", none⟩] ∧
    (resolvedAttrs (fun u a => u ++ a) "http://site/page"
        [⟨some "/a.png", none⟩, ⟨none, some "b.gif"⟩, ⟨some "http://other/c.jpg", none⟩]).length
      = 3 :=
  ⟨(C3_extractor_dedup (fun u a => u ++ a) "http://site/page"
      [⟨some "/a.png", none⟩, ⟨none, some "b.gif"⟩, ⟨some "http://other/c.jpg", none⟩]).2.2
      (by decide),
   by decide⟩

end ImageScraper
